import Mathlib

/-!
# CandleTerm: the candlestick renderer `Chart::draw` of `src/main.cpp`

A shallow embedding of `Chart::draw` and of the helpers it uses.

Modelling conventions.

* A `double` is a value of `Dbl`: a finite value carried by the rational it
  denotes, `+∞`, `-∞` or NaN. Every arithmetic operation computes the exact
  result and rounds it once to the nearest binary64 value, ties to even
  (53 significant bits, subnormals below `2^-1022`, overflow to infinity from
  `2^1024`), as IEEE 754 prescribes; no two operations are fused. Comparisons
  with NaN are false.
* Negative zero is identified with zero. No comparison of the renderer
  distinguishes the two zeros, and its arithmetic could do so only through a
  division by zero; the one divisor of `getRow`, `maxPrice - minPrice`, is a
  zero only as the difference of two equal finite values, which is `+0`. The
  text printed for a zero is left to the parameter `showDouble` of `draw`.
* The cast `(int)x` is undefined for NaN, for the infinities and for values
  whose truncation does not fit a 32-bit `int`; so is the subtraction
  `(height - 1) - row` when its result does not fit.
* Terminal columns, bar counts and indices are unbounded integers.
* Behaviour that C++ leaves undefined (indexing `window[0]` of an empty
  vector, an iterator past the end, `screen[r][col]` outside the grid, an
  undefined cast) is the result `none`.
-/

namespace CandleTerm

/-! ## Binary64 arithmetic -/

/-- A value of type `double`. The value `fin q` is finite with the rational
value `q`; it is a `double` when `q` is representable in binary64, which
`Dbl.isDouble` tests. -/
inductive Dbl where
  | fin (q : ℚ)
  | pinf
  | ninf
  | nan
  deriving DecidableEq

/-- The power `2^e` for an integer exponent. -/
def pow2 (e : Int) : ℚ :=
  if 0 ≤ e then ((2 ^ e.toNat : Nat) : ℚ) else 1 / ((2 ^ (-e).toNat : Nat) : ℚ)

/-- Binary logarithm of a natural number by repeated halving, with the
number of halvings bounded by `fuel`. -/
def log2Aux : Nat → Nat → Nat
  | 0, _ => 0
  | fuel + 1, n => if 2 ≤ n then log2Aux fuel (n / 2) + 1 else 0

/-- The floor of the binary logarithm of a positive natural number. -/
def natLog2 (n : Nat) : Nat := log2Aux n n

/-- The binary exponent of a positive rational: the `e` with
`2^e ≤ x < 2^(e+1)`. -/
def ilog2 (x : ℚ) : Int :=
  let e0 : Int := (natLog2 x.num.natAbs : Int) - (natLog2 x.den : Int)
  if pow2 e0 ≤ x then e0 else e0 - 1

/-- Rounding to the nearest integer, ties to the even one. -/
def roundEven (y : ℚ) : Int :=
  let f := ⌊y⌋
  let r := y - (f : ℚ)
  if r < 1 / 2 then f else if 1 / 2 < r then f + 1 else if f % 2 = 0 then f else f + 1

/-- The spacing of binary64 values around a non-negative `x`: `2^(e - 52)`
for the exponent `e` of `x`, and `2^-1074` in the subnormal range. -/
def quantum (x : ℚ) : ℚ := pow2 (max (ilog2 x) (-1022) - 52)

/-- Rounding of a non-negative rational to the binary64 grid, before the
overflow test. -/
def roundPos (x : ℚ) : ℚ := (roundEven (x / quantum x) : ℚ) * quantum x

/-- Rounding of a rational to the binary64 grid, before the overflow test. -/
def roundFin (x : ℚ) : ℚ := if 0 ≤ x then roundPos x else -roundPos (-x)

/-- The binary64 value of an exact result: rounding to nearest, ties to
even, with overflow to infinity. -/
def roundDbl (x : ℚ) : Dbl :=
  let r := roundFin x
  if pow2 1024 ≤ r then Dbl.pinf else if r ≤ -pow2 1024 then Dbl.ninf else Dbl.fin r

/-- Unary minus on `double`. -/
def Dbl.neg : Dbl → Dbl
  | fin x => fin (-x)
  | pinf => ninf
  | ninf => pinf
  | nan => nan

/-- The operator `+` on `double`. -/
def Dbl.add (a b : Dbl) : Dbl :=
  match a with
  | fin x =>
    (match b with
    | fin y => roundDbl (x + y)
    | pinf => pinf
    | ninf => ninf
    | nan => nan)
  | pinf =>
    (match b with
    | ninf => nan
    | nan => nan
    | _ => pinf)
  | ninf =>
    (match b with
    | pinf => nan
    | nan => nan
    | _ => ninf)
  | nan => nan

/-- The operator `-` on `double`. -/
def Dbl.sub (a b : Dbl) : Dbl := Dbl.add a (Dbl.neg b)

/-- The operator `*` on `double`. -/
def Dbl.mul (a b : Dbl) : Dbl :=
  match a with
  | fin x =>
    (match b with
    | fin y => roundDbl (x * y)
    | pinf => if 0 < x then pinf else if x < 0 then ninf else nan
    | ninf => if 0 < x then ninf else if x < 0 then pinf else nan
    | nan => nan)
  | pinf =>
    (match b with
    | fin y => if 0 < y then pinf else if y < 0 then ninf else nan
    | pinf => pinf
    | ninf => ninf
    | nan => nan)
  | ninf =>
    (match b with
    | fin y => if 0 < y then ninf else if y < 0 then pinf else nan
    | pinf => ninf
    | ninf => pinf
    | nan => nan)
  | nan => nan

/-- The operator `/` on `double`; a zero divisor is `+0`. -/
def Dbl.div (a b : Dbl) : Dbl :=
  match a with
  | fin x =>
    (match b with
    | fin y =>
      if y = 0 then (if 0 < x then pinf else if x < 0 then ninf else nan)
      else roundDbl (x / y)
    | pinf => fin 0
    | ninf => fin 0
    | nan => nan)
  | pinf =>
    (match b with
    | fin y => if 0 ≤ y then pinf else ninf
    | _ => nan)
  | ninf =>
    (match b with
    | fin y => if 0 ≤ y then ninf else pinf
    | _ => nan)
  | nan => nan

/-- The comparison `a < b` on `double`. -/
def Dbl.lt (a b : Dbl) : Bool :=
  match a with
  | fin x =>
    (match b with
    | fin y => decide (x < y)
    | pinf => true
    | _ => false)
  | ninf =>
    (match b with
    | fin _ => true
    | pinf => true
    | _ => false)
  | _ => false

/-- The comparison `a <= b` on `double`. -/
def Dbl.le (a b : Dbl) : Bool :=
  match a with
  | fin x =>
    (match b with
    | fin y => decide (x ≤ y)
    | pinf => true
    | _ => false)
  | ninf =>
    (match b with
    | nan => false
    | _ => true)
  | pinf =>
    (match b with
    | pinf => true
    | _ => false)
  | nan => false

/-- The comparison `a == b` on `double`. -/
def Dbl.beq (a b : Dbl) : Bool :=
  match a with
  | fin x =>
    (match b with
    | fin y => decide (x = y)
    | _ => false)
  | pinf =>
    (match b with
    | pinf => true
    | _ => false)
  | ninf =>
    (match b with
    | ninf => true
    | _ => false)
  | nan => false

/-- A value that a `double` variable can hold: a finite value is one that
rounding leaves unchanged. -/
def Dbl.isDouble (d : Dbl) : Bool :=
  match d with
  | fin x => decide (roundDbl x = fin x)
  | _ => true

/-- The conversion of an `int` to `double`. -/
def ofInt (n : Int) : Dbl := roundDbl (n : ℚ)

/-- The least value of a 32-bit `int`. -/
def intMin : Int := -2147483648

/-- The greatest value of a 32-bit `int`. -/
def intMax : Int := 2147483647

/-- An integer result, defined when it fits an `int`. -/
def checkInt (n : Int) : Option Int := if intMin ≤ n ∧ n ≤ intMax then some n else none

/-- Truncation of a rational toward zero. -/
def truncQ (x : ℚ) : Int := Int.tdiv x.num (x.den : Int)

/-- The cast `(int)x` of a `double`: truncation toward zero, undefined for
NaN, the infinities and values outside the range of `int`. -/
def toInt (d : Dbl) : Option Int :=
  match d with
  | Dbl.fin x => checkInt (truncQ x)
  | _ => none

/-! ## The renderer -/

/-- One day's quote, `struct Candle`. The field `open` of the source is
`open_` here. -/
structure Candle where
  date : String
  open_ : Dbl
  high : Dbl
  low : Dbl
  close : Dbl
  deriving DecidableEq

/-- Method `Chart::getTerminalWidth`. The argument is what `ioctl(TIOCGWINSZ)`
delivers: `none` when the call returns `-1`, otherwise the field `ws_col`. -/
def getTerminalWidth (wsCol : Option Nat) : Int :=
  match wsCol with
  | none => 80
  | some c => (c : Int)

/-- Source line `int padding = 4;` -/
def padding : Int := 4

/-- Source line `int stride = 2;` -/
def stride : Int := 2

/-- Source line `int availableCols = termWidth - padding;` -/
def availableCols (termWidth : Int) : Int := termWidth - padding

/-- Source line `int maxCandles = availableCols / stride;` C++ integer division
truncates toward zero. -/
def maxCandles (termWidth : Int) : Int := Int.tdiv (availableCols termWidth) stride

/-- Source line `int numCandlesToShow = std::min((int)candles.size(), maxCandles);` -/
def numCandlesToShow (size : Nat) (termWidth : Int) : Int :=
  min (size : Int) (maxCandles termWidth)

/-- Source line `int startIdx = candles.size() - numCandlesToShow;` -/
def startIdx (size : Nat) (termWidth : Int) : Int :=
  (size : Int) - numCandlesToShow size termWidth

/-- Source line
`std::vector<Candle> window(candles.begin() + startIdx, candles.end());`
The range is valid only when `0 ≤ startIdx ≤ candles.size()`. -/
def selectWindow (candles : List Candle) (termWidth : Int) : Option (List Candle) :=
  let s := startIdx candles.length termWidth
  if 0 ≤ s ∧ s ≤ (candles.length : Int) then some (candles.drop s.toNat) else none

/-- One iteration of the range loop: `if (c.low < minPrice) minPrice = c.low;`
and `if (c.high > maxPrice) maxPrice = c.high;`. -/
def rangeStep (acc : Dbl × Dbl) (c : Candle) : Dbl × Dbl :=
  (if Dbl.lt c.low acc.1 then c.low else acc.1, if Dbl.lt acc.2 c.high then c.high else acc.2)

/-- The range loop, started from `window[0].low` and `window[0].high`,
followed by `if (maxPrice == minPrice) maxPrice += 1.0;`. The result is
`(minPrice, maxPrice)`; `window[0]` of an empty window is undefined. -/
def priceRange (window : List Candle) : Option (Dbl × Dbl) :=
  match window with
  | [] => none
  | c0 :: _ =>
    let acc := window.foldl rangeStep (c0.low, c0.high)
    some (acc.1, if Dbl.beq acc.2 acc.1 then Dbl.add acc.2 (Dbl.fin 1) else acc.2)

/-- The operand of the cast in `getRow`: the `double` value of
`ratio * (height - 1) + 0.5` with
`ratio = (price - minPrice) / (maxPrice - minPrice)`. -/
def rowArg (height : Int) (minPrice maxPrice price : Dbl) : Dbl :=
  let ratio := Dbl.div (Dbl.sub price minPrice) (Dbl.sub maxPrice minPrice)
  Dbl.add (Dbl.mul ratio (ofInt (height - 1))) (Dbl.fin (1 / 2))

/-- The lambda `getRow` of `Chart::draw`, with its captured variables
`height`, `minPrice` and `maxPrice` as arguments:
`int row = (int)(ratio * (height - 1) + 0.5); return (height - 1) - row;`. -/
def getRow (height : Int) (minPrice maxPrice price : Dbl) : Option Int :=
  match toInt (rowArg height minPrice maxPrice price) with
  | none => none
  | some row => checkInt ((height - 1) - row)

/-- The four rows `yHigh`, `yLow`, `yOpen`, `yClose` of one bar. -/
structure Rows where
  yHigh : Int
  yLow : Int
  yOpen : Int
  yClose : Int
  deriving DecidableEq

/-- The four calls of `getRow` for the bar `c`, in the order of the source. -/
def candleRows (height : Int) (minPrice maxPrice : Dbl) (c : Candle) : Option Rows :=
  match getRow height minPrice maxPrice c.high with
  | none => none
  | some yHigh =>
    match getRow height minPrice maxPrice c.low with
    | none => none
    | some yLow =>
      match getRow height minPrice maxPrice c.open_ with
      | none => none
      | some yOpen =>
        match getRow height minPrice maxPrice c.close with
        | none => none
        | some yClose => some (Rows.mk yHigh yLow yOpen yClose)

/-- Source line `int bodyTop = std::min(yOpen, yClose);` -/
def bodyTop (rows : Rows) : Int := min rows.yOpen rows.yClose

/-- Source line `int bodyBottom = std::max(yOpen, yClose);` -/
def bodyBottom (rows : Rows) : Int := max rows.yOpen rows.yClose

/-- The character grid `std::vector<std::string> screen`. -/
abbrev Screen := List (List Char)

/-- Source line
`std::vector<std::string> screen(height, std::string(width, ' '));`
A negative `height` is not a valid size. -/
def blankScreen (height : Int) (width : Nat) : Option Screen :=
  if 0 ≤ height then some (List.replicate height.toNat (List.replicate width ' ')) else none

/-- The assignment `screen[r][col] = ch`; undefined outside the grid. -/
def setCell (screen : Screen) (r : Int) (col : Nat) (ch : Char) : Option Screen :=
  if 0 ≤ r then
    match screen[r.toNat]? with
    | none => none
    | some line =>
      if col < line.length then some (screen.set r.toNat (line.set col ch)) else none
  else none

/-- The values `lo, lo + 1, ..., hi` taken by the loop variable of
`for (int r = lo; r <= hi; ++r)`. -/
def loopRows (lo hi : Int) : List Int :=
  (List.range (hi + 1 - lo).toNat).map (fun (i : Nat) => lo + (i : Int))

/-- Loop `for (int r = lo; r <= hi; ++r) screen[r][col] = ch;` over the rows
`rows` of its loop variable. -/
def paintRows (screen : Screen) (col : Nat) (ch : Char) (rows : List Int) : Option Screen :=
  match rows with
  | [] => some screen
  | r :: rest =>
    match setCell screen r col ch with
    | none => none
    | some s => paintRows s col ch rest

/-- Source line `bool isBullish = (c.close >= c.open);` -/
def isBullish (c : Candle) : Bool := Dbl.le c.open_ c.close

/-- Source line `char symbol = isBullish ? 'O' : '#';` -/
def bodySymbol (c : Candle) : Char := if isBullish c then 'O' else '#'

/-- The body of the column loop for the bar `c` at column `col`: the four
rows, the wick loop, then the body loop. -/
def paintColumn (height : Int) (minPrice maxPrice : Dbl) (screen : Screen) (col : Nat)
    (c : Candle) : Option Screen :=
  match candleRows height minPrice maxPrice c with
  | none => none
  | some rows =>
    match paintRows screen col '|' (loopRows rows.yHigh rows.yLow) with
    | none => none
    | some s => paintRows s col (bodySymbol c) (loopRows (bodyTop rows) (bodyBottom rows))

/-- The column loop `for (int col = 0; col < window.size(); ++col)`, run on
the bars that remain from column `col` on. -/
def paintFrom (height : Int) (minPrice maxPrice : Dbl) (screen : Screen) (col : Nat)
    (bars : List Candle) : Option Screen :=
  match bars with
  | [] => some screen
  | c :: rest =>
    match paintColumn height minPrice maxPrice screen col c with
    | none => none
    | some s => paintFrom height minPrice maxPrice s (col + 1) rest

/-- The grid of `Chart::draw` after the column loop, for a given window. -/
def drawScreen (height : Int) (window : List Candle) : Option Screen :=
  match priceRange window with
  | none => none
  | some (minPrice, maxPrice) =>
    match blankScreen height window.length with
    | none => none
    | some screen => paintFrom height minPrice maxPrice screen 0 window

/-- The text written for one grid cell by the output loop. -/
def cellText (cell : Char) : String :=
  if cell = 'O' then "\x1b[32m" ++ "█" ++ "\x1b[0m "
  else if cell = '#' then "\x1b[31m" ++ "█" ++ "\x1b[0m "
  else if cell = '|' then "\x1b[90m" ++ "│" ++ "\x1b[0m "
  else "  "

/-- The text written for one grid row by the output loop. -/
def rowText (line : List Char) : String :=
  "  " ++ String.join (line.map cellText) ++ "\n"

/-- The footer line with `window.front().date` and `window.back().date`. -/
def rangeText (window : List Candle) : String :=
  match window.head?, window.getLast? with
  | some a, some b => "Range: " ++ a.date ++ " -> " ++ b.date ++ "\n"
  | _, _ => ""

/-- Method `Chart::draw`: the text written to standard output. `showDouble` is the
formatting of a `double` by the output stream, `wsCol` the answer of the
terminal to the width query. -/
def draw (showDouble : Dbl → String) (height : Int) (wsCol : Option Nat)
    (candles : List Candle) (symbol : String) : Option String :=
  if candles.isEmpty then some ""
  else
    match selectWindow candles (getTerminalWidth wsCol) with
    | none => none
    | some window =>
      match priceRange window, drawScreen height window with
      | some (minPrice, maxPrice), some screen =>
        some ("\n\x1b[1m" ++ "Chart: " ++ symbol ++ " (" ++ toString window.length
          ++ " candles)" ++ "\x1b[0m" ++ "\n"
          ++ "Max: " ++ showDouble maxPrice ++ "\n" ++ "\n"
          ++ String.join (screen.map rowText)
          ++ "\nMin: " ++ showDouble minPrice ++ "\n"
          ++ rangeText window
          ++ "\n")
      | _, _ => none

/-! ## Sample data and the vocabulary of the statements -/

/-- The bar of the worked example: open 100, high 105, low 99, close 103. -/
def sampleBar : Candle :=
  { date := "2024-01-02", open_ := Dbl.fin 100, high := Dbl.fin 105, low := Dbl.fin 99,
    close := Dbl.fin 103 }

/-- A bar that violates the quote invariant: its open lies above its high. -/
def badBar : Candle :=
  { date := "2024-01-02", open_ := Dbl.fin 200, high := Dbl.fin 105, low := Dbl.fin 99,
    close := Dbl.fin 103 }

/-- A bar whose four prices coincide at 50. -/
def flatBar : Candle :=
  { date := "2024-01-03", open_ := Dbl.fin 50, high := Dbl.fin 50, low := Dbl.fin 50,
    close := Dbl.fin 50 }

/-- A bar whose four prices coincide at `2^53 = 9007199254740992`, the
least magnitude at which adding `1.0` to a `double` leaves it unchanged. -/
def flatBar53 : Candle :=
  { date := "2024-01-04", open_ := Dbl.fin 9007199254740992, high := Dbl.fin 9007199254740992,
    low := Dbl.fin 9007199254740992, close := Dbl.fin 9007199254740992 }

/-- The four prices of a bar are values of type `double`. -/
def Candle.isDouble (c : Candle) : Bool :=
  c.open_.isDouble && c.high.isDouble && c.low.isDouble && c.close.isDouble

/-- Reading the cell `screen[r][col]`; `none` outside the grid. -/
def cell (screen : Screen) (r col : Nat) : Option Char :=
  match screen[r]? with
  | none => none
  | some str => str[col]?

/-- A grid of `h` rows with `w` characters each. -/
def Shaped (screen : Screen) (h w : Nat) : Prop :=
  screen.length = h ∧ ∀ line ∈ screen, line.length = w

/-- The four rows lie inside a grid of `height` rows. -/
def Rows.inGrid (rows : Rows) (height : Int) : Prop :=
  ∀ y ∈ [rows.yHigh, rows.yLow, rows.yOpen, rows.yClose], 0 ≤ y ∧ y < height

instance (rows : Rows) (height : Int) : Decidable (rows.inGrid height) := by
  unfold Rows.inGrid
  infer_instance

/-- The content of the column of bar `c` at row `r` as the specification
words it: the body marker on the rows from `bodyTop` to `bodyBottom`, the
wick marker on the other rows from `yHigh` to `yLow`, blank elsewhere. -/
def expectedCell (rows : Rows) (c : Candle) (r : Int) : Char :=
  if bodyTop rows ≤ r ∧ r ≤ bodyBottom rows then bodySymbol c
  else if rows.yHigh ≤ r ∧ r ≤ rows.yLow then '|'
  else ' '

/-- What the wick loop and the body loop for rows `rows` leave in a cell of
their column at row `r` that held `old` before. -/
def overlay (rows : Rows) (c : Candle) (r : Int) (old : Option Char) : Option Char :=
  if bodyTop rows ≤ r ∧ r ≤ bodyBottom rows then some (bodySymbol c)
  else if rows.yHigh ≤ r ∧ r ≤ rows.yLow then some '|'
  else old

/-- What one iteration of the column loop for bar `c` leaves in a cell of
its column. -/
def overlayBar (height : Int) (minPrice maxPrice : Dbl) (c : Candle) (r : Int)
    (old : Option Char) : Option Char :=
  match candleRows height minPrice maxPrice c with
  | none => old
  | some rows => overlay rows c r old

/-! ## Rounding -/

theorem pow2_eq (e : Int) : pow2 e = (2 : ℚ) ^ e := by
  unfold pow2
  split
  next h =>
    have : e = ((e.toNat : Nat) : Int) := (Int.toNat_of_nonneg h).symm
    conv_rhs => rw [this]
    rw [zpow_natCast]
    push_cast
    rfl
  next h =>
    have : e = -(((-e).toNat : Nat) : Int) := by omega
    conv_rhs => rw [this]
    rw [zpow_neg, zpow_natCast]
    push_cast
    rw [one_div]

theorem pow2_pos (e : Int) : 0 < pow2 e := by
  rw [pow2_eq]
  positivity

theorem pow2_add (a b : Int) : pow2 (a + b) = pow2 a * pow2 b := by
  rw [pow2_eq, pow2_eq, pow2_eq, zpow_add₀ (by norm_num)]

theorem pow2_le {a b : Int} (h : a ≤ b) : pow2 a ≤ pow2 b := by
  rw [pow2_eq, pow2_eq]
  exact zpow_le_zpow_right₀ (by norm_num) h

theorem pow2_lt_iff {a b : Int} : pow2 a < pow2 b ↔ a < b := by
  rw [pow2_eq, pow2_eq]
  exact zpow_lt_zpow_iff_right₀ (by norm_num)

theorem pow2_natCast (n : Nat) : pow2 (n : Int) = (2 : ℚ) ^ n := by
  rw [pow2_eq, zpow_natCast]

theorem log2Aux_spec (fuel : Nat) :
    ∀ n : Nat, n ≤ fuel → 0 < n → 2 ^ log2Aux fuel n ≤ n ∧ n < 2 ^ (log2Aux fuel n + 1) := by
  induction fuel with
  | zero =>
    intro n h1 h2
    omega
  | succ fuel ih =>
    intro n h1 h2
    unfold log2Aux
    split
    next h =>
      obtain ⟨ih1, ih2⟩ := ih (n / 2) (by omega) (by omega)
      rw [pow_succ] at ih2
      rw [pow_succ, pow_succ, pow_succ]
      omega
    next h =>
      have : n = 1 := by omega
      subst this
      simp

theorem natLog2_spec {n : Nat} (hn : 0 < n) :
    2 ^ natLog2 n ≤ n ∧ n < 2 ^ (natLog2 n + 1) :=
  log2Aux_spec n n (le_refl n) hn

theorem pow2_bracket (a b : ℚ) (la lb : Nat) (ha1 : (2 : ℚ) ^ la ≤ a)
    (ha2 : a < (2 : ℚ) ^ (la + 1)) (hb1 : (2 : ℚ) ^ lb ≤ b) (hb2 : b < (2 : ℚ) ^ (lb + 1))
    (hbpos : 0 < b) :
    pow2 ((la : Int) - (lb : Int) - 1) ≤ a / b ∧ a / b < pow2 ((la : Int) - (lb : Int) + 1) := by
  have hapos : 0 < a := lt_of_lt_of_le (by positivity) ha1
  constructor
  · have e : ((la : Int) - (lb : Int) - 1) = (la : Int) + -((lb + 1 : Nat) : Int) := by
      push_cast; ring
    rw [e, pow2_add, pow2_natCast, pow2_eq, zpow_neg, zpow_natCast, ← div_eq_mul_inv]
    rw [div_le_div_iff₀ (by positivity) hbpos]
    calc (2 : ℚ) ^ la * b ≤ a * b := mul_le_mul_of_nonneg_right ha1 hbpos.le
      _ ≤ a * (2 : ℚ) ^ (lb + 1) := mul_le_mul_of_nonneg_left hb2.le hapos.le
  · have e : ((la : Int) - (lb : Int) + 1) = ((la + 1 : Nat) : Int) + -((lb : Nat) : Int) := by
      push_cast; ring
    rw [e, pow2_add, pow2_natCast, pow2_eq, zpow_neg, zpow_natCast, ← div_eq_mul_inv]
    rw [div_lt_div_iff₀ hbpos (by positivity)]
    calc a * (2 : ℚ) ^ lb < (2 : ℚ) ^ (la + 1) * (2 : ℚ) ^ lb :=
          mul_lt_mul_of_pos_right ha2 (by positivity)
      _ ≤ (2 : ℚ) ^ (la + 1) * b := mul_le_mul_of_nonneg_left hb1 (by positivity)

theorem ilog2_spec {x : ℚ} (hx : 0 < x) : pow2 (ilog2 x) ≤ x ∧ x < pow2 (ilog2 x + 1) := by
  have hnum : 0 < x.num := Rat.num_pos.mpr hx
  have hden : 0 < x.den := x.den_pos
  obtain ⟨a1, a2⟩ := natLog2_spec (show 0 < x.num.natAbs by omega)
  obtain ⟨b1, b2⟩ := natLog2_spec hden
  have hxe : (x.num.natAbs : ℚ) / (x.den : ℚ) = x := by
    have h1 : ((x.num.natAbs : Int) : ℚ) = (x.num : ℚ) := by
      rw [Int.natAbs_of_nonneg hnum.le]
    have h2 : ((x.num.natAbs : Int) : ℚ) = (x.num.natAbs : ℚ) := Int.cast_natCast _
    rw [← h2, h1]
    exact Rat.num_div_den x
  have ha1 : ((2 : ℚ) ^ natLog2 x.num.natAbs) ≤ (x.num.natAbs : ℚ) := by exact_mod_cast a1
  have ha2 : (x.num.natAbs : ℚ) < (2 : ℚ) ^ (natLog2 x.num.natAbs + 1) := by exact_mod_cast a2
  have hb1 : ((2 : ℚ) ^ natLog2 x.den) ≤ (x.den : ℚ) := by exact_mod_cast b1
  have hb2 : (x.den : ℚ) < (2 : ℚ) ^ (natLog2 x.den + 1) := by exact_mod_cast b2
  have hbpos : (0 : ℚ) < (x.den : ℚ) := by exact_mod_cast hden
  obtain ⟨hlow, hup⟩ := pow2_bracket _ _ _ _ ha1 ha2 hb1 hb2 hbpos
  rw [hxe] at hlow hup
  unfold ilog2
  simp only
  split
  next h => exact ⟨h, hup⟩
  next h =>
    refine ⟨hlow, ?_⟩
    rw [sub_add_cancel]
    exact not_le.mp h

theorem ilog2_mono {x y : ℚ} (hx : 0 < x) (hxy : x ≤ y) : ilog2 x ≤ ilog2 y := by
  have h1 := (ilog2_spec hx).1
  have h2 := (ilog2_spec (hx.trans_le hxy)).2
  have h3 : pow2 (ilog2 x) < pow2 (ilog2 y + 1) := lt_of_le_of_lt (h1.trans hxy) h2
  have := pow2_lt_iff.mp h3
  omega

theorem roundEven_bounds (y : ℚ) : ⌊y⌋ ≤ roundEven y ∧ roundEven y ≤ ⌊y⌋ + 1 := by
  unfold roundEven
  simp only
  split_ifs <;> omega

theorem roundEven_intCast (n : Int) : roundEven (n : ℚ) = n := by
  unfold roundEven
  simp

theorem roundEven_mono {y z : ℚ} (h : y ≤ z) : roundEven y ≤ roundEven z := by
  have hf : ⌊y⌋ ≤ ⌊z⌋ := Int.floor_mono h
  rcases lt_or_eq_of_le hf with hlt | heq
  · have h1 := (roundEven_bounds y).2
    have h2 := (roundEven_bounds z).1
    omega
  · unfold roundEven
    simp only
    rw [heq]
    have hr : y - (⌊z⌋ : ℚ) ≤ z - (⌊z⌋ : ℚ) := by linarith
    split_ifs <;> first | omega | (exfalso; linarith)

theorem roundEven_le_of_le {y : ℚ} {n : Int} (h : y ≤ (n : ℚ)) : roundEven y ≤ n := by
  have := roundEven_mono h
  rwa [roundEven_intCast] at this

theorem roundEven_ge_of_ge {y : ℚ} {n : Int} (h : (n : ℚ) ≤ y) : n ≤ roundEven y := by
  have := roundEven_mono h
  rwa [roundEven_intCast] at this

theorem quantum_pos (x : ℚ) : 0 < quantum x := pow2_pos _

theorem roundPos_nonneg {x : ℚ} (hx : 0 ≤ x) : 0 ≤ roundPos x := by
  unfold roundPos
  have hq := quantum_pos x
  have h0 : (0 : Int) ≤ roundEven (x / quantum x) :=
    roundEven_ge_of_ge (by simpa using div_nonneg hx hq.le)
  have : (0 : ℚ) ≤ (roundEven (x / quantum x) : ℚ) := by exact_mod_cast h0
  exact mul_nonneg this hq.le

theorem roundPos_zero : roundPos 0 = 0 := by
  unfold roundPos
  have : roundEven ((0 : ℚ) / quantum 0) = 0 := by
    rw [zero_div]
    exact_mod_cast roundEven_intCast 0
  rw [this]
  simp

theorem roundPos_le_pow2 {x : ℚ} (hx : 0 < x) :
    roundPos x ≤ pow2 (max (ilog2 x) (-1022) + 1) := by
  have hq := quantum_pos x
  have hup : x < pow2 (max (ilog2 x) (-1022) + 1) :=
    lt_of_lt_of_le (ilog2_spec hx).2 (pow2_le (by omega))
  have e : pow2 (max (ilog2 x) (-1022) + 1) = ((2 ^ 53 : Int) : ℚ) * quantum x := by
    unfold quantum
    have : max (ilog2 x) (-1022) + 1 = 53 + (max (ilog2 x) (-1022) - 52) := by ring
    rw [this, pow2_add]
    congr 1
  have h1 : x / quantum x ≤ ((2 ^ 53 : Int) : ℚ) := by
    rw [div_le_iff₀ hq, ← e]
    exact hup.le
  have h2 := roundEven_le_of_le h1
  have h3 : (roundEven (x / quantum x) : ℚ) ≤ ((2 ^ 53 : Int) : ℚ) := by exact_mod_cast h2
  unfold roundPos
  rw [e]
  exact mul_le_mul_of_nonneg_right h3 hq.le

theorem pow2_le_roundPos {x : ℚ} (hx : 0 < x) (he : -1022 ≤ ilog2 x) :
    pow2 (ilog2 x) ≤ roundPos x := by
  have hq := quantum_pos x
  have hm : max (ilog2 x) (-1022) = ilog2 x := max_eq_left he
  have e : pow2 (ilog2 x) = ((2 ^ 52 : Int) : ℚ) * quantum x := by
    unfold quantum
    rw [hm]
    have : ilog2 x = 52 + (ilog2 x - 52) := by ring
    conv_lhs => rw [this]
    rw [pow2_add]
    congr 1
  have h1 : ((2 ^ 52 : Int) : ℚ) ≤ x / quantum x := by
    rw [le_div_iff₀ hq, ← e]
    exact (ilog2_spec hx).1
  have h2 := roundEven_ge_of_ge h1
  have h3 : ((2 ^ 52 : Int) : ℚ) ≤ (roundEven (x / quantum x) : ℚ) := by exact_mod_cast h2
  unfold roundPos
  rw [e]
  exact mul_le_mul_of_nonneg_right h3 hq.le

theorem roundPos_mono {x y : ℚ} (hx : 0 ≤ x) (hxy : x ≤ y) : roundPos x ≤ roundPos y := by
  rcases eq_or_lt_of_le hx with h0 | hpos
  · rw [← h0, roundPos_zero]
    exact roundPos_nonneg (hx.trans hxy)
  · have hypos : 0 < y := hpos.trans_le hxy
    have hl := ilog2_mono hpos hxy
    rcases lt_or_eq_of_le (max_le_max hl (le_refl (-1022 : Int))) with hlt | heq
    · have hy1 : -1022 ≤ ilog2 y := by
        by_contra hc
        have : max (ilog2 y) (-1022) = -1022 := max_eq_right (by omega)
        rw [this] at hlt
        have := le_max_right (ilog2 x) (-1022)
        omega
      have hm : max (ilog2 y) (-1022) = ilog2 y := max_eq_left hy1
      rw [hm] at hlt
      calc roundPos x ≤ pow2 (max (ilog2 x) (-1022) + 1) := roundPos_le_pow2 hpos
        _ ≤ pow2 (ilog2 y) := pow2_le (by omega)
        _ ≤ roundPos y := pow2_le_roundPos hypos hy1
    · have hq : quantum x = quantum y := by
        unfold quantum
        rw [heq]
      unfold roundPos
      rw [hq]
      have h1 : x / quantum y ≤ y / quantum y :=
        div_le_div_of_nonneg_right hxy (quantum_pos y).le
      have h2 := roundEven_mono h1
      have h3 : (roundEven (x / quantum y) : ℚ) ≤ (roundEven (y / quantum y) : ℚ) := by
        exact_mod_cast h2
      exact mul_le_mul_of_nonneg_right h3 (quantum_pos y).le

theorem roundFin_zero : roundFin 0 = 0 := by
  unfold roundFin
  rw [if_pos (le_refl 0), roundPos_zero]

theorem roundFin_mono {x y : ℚ} (hxy : x ≤ y) : roundFin x ≤ roundFin y := by
  unfold roundFin
  by_cases hx : 0 ≤ x
  · rw [if_pos hx, if_pos (hx.trans hxy)]
    exact roundPos_mono hx hxy
  · rw [if_neg hx]
    have hx' : 0 ≤ -x := by linarith
    by_cases hy : 0 ≤ y
    · rw [if_pos hy]
      have h1 := roundPos_nonneg hx'
      have h2 := roundPos_nonneg hy
      linarith
    · rw [if_neg hy]
      have hy' : 0 ≤ -y := by linarith
      have := roundPos_mono hy' (show -y ≤ -x by linarith)
      linarith

theorem roundFin_nonneg {x : ℚ} (hx : 0 ≤ x) : 0 ≤ roundFin x := by
  have := roundFin_mono hx
  rwa [roundFin_zero] at this

theorem roundDbl_mono {x y : ℚ} (hxy : x ≤ y) : Dbl.le (roundDbl x) (roundDbl y) = true := by
  have h := pow2_pos 1024
  have hr := roundFin_mono hxy
  unfold roundDbl
  simp only
  split_ifs <;> simp [Dbl.le] <;> linarith

/-! ## Operations on `double` and the price-to-row mapping -/

theorem roundDbl_eq_fin {x u : ℚ} (h : roundDbl x = Dbl.fin u) : u = roundFin x := by
  unfold roundDbl at h
  simp only at h
  split_ifs at h
  injection h with h
  exact h.symm

theorem roundDbl_fin_mono {x y u v : ℚ} (hxy : x ≤ y) (hx : roundDbl x = Dbl.fin u)
    (hy : roundDbl y = Dbl.fin v) : u ≤ v := by
  rw [roundDbl_eq_fin hx, roundDbl_eq_fin hy]
  exact roundFin_mono hxy

theorem Dbl.le_trans {a b c : Dbl} (h1 : Dbl.le a b = true) (h2 : Dbl.le b c = true) :
    Dbl.le a c = true := by
  cases a <;> cases b <;> cases c <;> simp [Dbl.le] at h1 h2 ⊢
  exact h1.trans h2

theorem Dbl.le_of_lt {a b : Dbl} (h : Dbl.lt a b = true) : Dbl.le a b = true := by
  cases a <;> cases b <;> simp [Dbl.le, Dbl.lt] at h ⊢
  exact h.le

theorem Dbl.eq_of_beq {a b : Dbl} (h : Dbl.beq a b = true) : a = b := by
  cases a <;> cases b <;> simp [Dbl.beq] at h ⊢
  exact h

theorem Dbl.add_eq_fin {a b : Dbl} {x : ℚ} (h : Dbl.add a b = Dbl.fin x) :
    ∃ u v, a = Dbl.fin u ∧ b = Dbl.fin v ∧ roundDbl (u + v) = Dbl.fin x := by
  cases a <;> cases b <;> simp [Dbl.add] at h ⊢
  exact h

theorem Dbl.sub_eq_fin {a b : Dbl} {x : ℚ} (h : Dbl.sub a b = Dbl.fin x) :
    ∃ u v, a = Dbl.fin u ∧ b = Dbl.fin v ∧ roundDbl (u - v) = Dbl.fin x := by
  cases a <;> cases b <;> simp [Dbl.sub, Dbl.add, Dbl.neg] at h ⊢
  rw [sub_eq_add_neg]
  exact h

theorem Dbl.mul_eq_fin {a b : Dbl} {x : ℚ} (h : Dbl.mul a b = Dbl.fin x) :
    ∃ u v, a = Dbl.fin u ∧ b = Dbl.fin v ∧ roundDbl (u * v) = Dbl.fin x := by
  cases a <;> cases b <;> simp only [Dbl.mul] at h <;>
    first
    | exact ⟨_, _, rfl, rfl, h⟩
    | exact absurd h (by simp)
    | (split_ifs at h)

theorem Dbl.div_eq_fin {a d : Dbl} {r : ℚ} (h : Dbl.div a d = Dbl.fin r) :
    ∃ u, a = Dbl.fin u ∧
      ((∃ v, d = Dbl.fin v ∧ v ≠ 0 ∧ roundDbl (u / v) = Dbl.fin r) ∨
        ((d = Dbl.pinf ∨ d = Dbl.ninf) ∧ r = 0)) := by
  cases a with
  | fin u =>
    refine ⟨u, rfl, ?_⟩
    cases d with
    | fin v =>
      by_cases hv : v = 0
      · exfalso
        simp only [Dbl.div, hv, if_true] at h
        split_ifs at h
      · simp only [Dbl.div, if_neg hv] at h
        exact Or.inl ⟨v, rfl, hv, h⟩
    | pinf =>
      simp only [Dbl.div, Dbl.fin.injEq] at h
      exact Or.inr ⟨Or.inl rfl, h.symm⟩
    | ninf =>
      simp only [Dbl.div, Dbl.fin.injEq] at h
      exact Or.inr ⟨Or.inr rfl, h.symm⟩
    | nan => exact absurd h (by simp [Dbl.div])
  | pinf =>
    cases d <;> simp only [Dbl.div] at h <;>
      first
      | exact absurd h (by simp)
      | (split_ifs at h)
  | ninf =>
    cases d <;> simp only [Dbl.div] at h <;>
      first
      | exact absurd h (by simp)
      | (split_ifs at h)
  | nan => exact absurd h (by simp [Dbl.div])

theorem truncQ_of_nonneg {x : ℚ} (hx : 0 ≤ x) : truncQ x = ⌊x⌋ := by
  unfold truncQ
  rw [Rat.floor_def]
  exact Int.tdiv_eq_ediv (Rat.num_nonneg.mpr hx) (Int.ofNat_nonneg _)

theorem truncQ_neg (x : ℚ) : truncQ (-x) = -truncQ x := by
  unfold truncQ
  rw [Rat.neg_num, Rat.neg_den, Int.neg_tdiv]

theorem truncQ_of_nonpos {x : ℚ} (hx : x ≤ 0) : truncQ x = ⌈x⌉ := by
  have h : truncQ (-x) = ⌊-x⌋ := truncQ_of_nonneg (by linarith)
  rw [truncQ_neg, Int.floor_neg] at h
  omega

theorem truncQ_mono {x y : ℚ} (hxy : x ≤ y) : truncQ x ≤ truncQ y := by
  rcases le_total 0 x with hx | hx
  · rw [truncQ_of_nonneg hx, truncQ_of_nonneg (hx.trans hxy)]
    exact Int.floor_mono hxy
  · rcases le_total 0 y with hy | hy
    · rw [truncQ_of_nonpos hx, truncQ_of_nonneg hy]
      have h1 : ⌈x⌉ ≤ 0 := Int.ceil_le.mpr (by simpa using hx)
      have h2 : (0 : Int) ≤ ⌊y⌋ := Int.floor_nonneg.mpr hy
      omega
    · rw [truncQ_of_nonpos hx, truncQ_of_nonpos hy]
      exact Int.ceil_mono hxy

theorem checkInt_eq_some {n m : Int} (h : checkInt n = some m) :
    m = n ∧ intMin ≤ n ∧ n ≤ intMax := by
  unfold checkInt at h
  split_ifs at h with hc
  injection h with h
  exact ⟨h.symm, hc.1, hc.2⟩

theorem toInt_eq_some {d : Dbl} {t : Int} (h : toInt d = some t) :
    ∃ x, d = Dbl.fin x ∧ t = truncQ x ∧ intMin ≤ t ∧ t ≤ intMax := by
  cases d with
  | fin x =>
    obtain ⟨h1, h2, h3⟩ := checkInt_eq_some h
    exact ⟨x, rfl, h1, by rw [h1]; exact h2, by rw [h1]; exact h3⟩
  | pinf => exact absurd h (by simp [toInt])
  | ninf => exact absurd h (by simp [toInt])
  | nan => exact absurd h (by simp [toInt])

theorem getRow_eq_some {height : Int} {mn mx p : Dbl} {r : Int}
    (h : getRow height mn mx p = some r) :
    ∃ x, rowArg height mn mx p = Dbl.fin x ∧ r = (height - 1) - truncQ x := by
  unfold getRow at h
  split at h
  · exact absurd h (by simp)
  next row hrow =>
    obtain ⟨x, hx, ht, -, -⟩ := toInt_eq_some hrow
    obtain ⟨h1, -, -⟩ := checkInt_eq_some h
    exact ⟨x, hx, by rw [h1, ht]⟩

theorem rowArg_mono {height : Int} {mn mx p q : Dbl} {xp xq : ℚ} (hh : 1 ≤ height)
    (hr : Dbl.le mn mx = true) (hpq : Dbl.le p q = true)
    (hp : rowArg height mn mx p = Dbl.fin xp) (hq : rowArg height mn mx q = Dbl.fin xq) :
    xp ≤ xq := by
  unfold rowArg at hp hq
  simp only at hp hq
  obtain ⟨yp, c1, hyp, hc1, hxp⟩ := Dbl.add_eq_fin hp
  obtain ⟨yq, c2, hyq, hc2, hxq⟩ := Dbl.add_eq_fin hq
  injection hc1 with hc1
  injection hc2 with hc2
  subst hc1 hc2
  obtain ⟨rp, k1, hrp, hk1, hyp'⟩ := Dbl.mul_eq_fin hyp
  obtain ⟨rq, k2, hrq, hk2, hyq'⟩ := Dbl.mul_eq_fin hyq
  have hk : k1 = k2 := by
    rw [hk1] at hk2
    injection hk2
  subst hk
  have hk0 : 0 ≤ k1 := by
    have e := roundDbl_eq_fin hk1
    rw [e]
    apply roundFin_nonneg
    have : (0 : Int) ≤ height - 1 := by omega
    exact_mod_cast this
  obtain ⟨ap, hap, hdp⟩ := Dbl.div_eq_fin hrp
  obtain ⟨aq, haq, hdq⟩ := Dbl.div_eq_fin hrq
  obtain ⟨p', m1, hp', hm1, hap'⟩ := Dbl.sub_eq_fin hap
  obtain ⟨q', m2, hq', hm2, haq'⟩ := Dbl.sub_eq_fin haq
  have hm : m1 = m2 := by
    rw [hm1] at hm2
    injection hm2
  subst hm
  have hpq' : p' ≤ q' := by
    rw [hp', hq'] at hpq
    simpa [Dbl.le] using hpq
  have ha : ap ≤ aq := roundDbl_fin_mono (by linarith) hap' haq'
  have hrr : rp ≤ rq := by
    rcases hdp with ⟨v, hv, hv0, hvp⟩ | ⟨hinfp, hp0⟩
    · rcases hdq with ⟨w, hw, hw0, hwq⟩ | ⟨hinf, -⟩
      · have hvw : v = w := by
          rw [hv] at hw
          injection hw
        subst hvw
        have hvpos : 0 < v := by
          obtain ⟨mx', m3, hmx', hm3, hd⟩ := Dbl.sub_eq_fin hv
          have hm : m3 = m1 := by
            rw [hm1] at hm3
            injection hm3 with e
            exact e.symm
          subst hm
          have hle : m3 ≤ mx' := by
            rw [hm1, hmx'] at hr
            simpa [Dbl.le] using hr
          have e := roundDbl_eq_fin hd
          have : 0 ≤ v := by
            rw [e]
            exact roundFin_nonneg (by linarith)
          exact lt_of_le_of_ne this (Ne.symm hv0)
        exact roundDbl_fin_mono (div_le_div_of_nonneg_right ha hvpos.le) hvp hwq
      · rw [hv] at hinf
        rcases hinf with h1 | h1 <;> exact absurd h1 (by simp)
    · rcases hdq with ⟨w, hw, -, -⟩ | ⟨-, hq0⟩
      · rw [hw] at hinfp
        rcases hinfp with h1 | h1 <;> exact absurd h1 (by simp)
      · rw [hp0, hq0]
  have hy : yp ≤ yq := roundDbl_fin_mono (mul_le_mul_of_nonneg_right hrr hk0) hyp' hyq'
  exact roundDbl_fin_mono (by linarith) hxp hxq

theorem getRow_antitone {height : Int} {mn mx p q : Dbl} {rp rq : Int} (hh : 1 ≤ height)
    (hr : Dbl.le mn mx = true) (hpq : Dbl.le p q = true)
    (hp : getRow height mn mx p = some rp) (hq : getRow height mn mx q = some rq) :
    rq ≤ rp := by
  obtain ⟨xp, hxp, e1⟩ := getRow_eq_some hp
  obtain ⟨xq, hxq, e2⟩ := getRow_eq_some hq
  have := truncQ_mono (rowArg_mono hh hr hpq hxp hxq)
  omega

/-! ## Writes into the grid -/

theorem mem_loopRows {lo hi r : Int} : r ∈ loopRows lo hi ↔ lo ≤ r ∧ r ≤ hi := by
  simp only [loopRows, List.mem_map, List.mem_range]
  constructor
  · rintro ⟨i, hi1, rfl⟩
    omega
  · rintro ⟨h1, h2⟩
    exact ⟨(r - lo).toNat, by omega, by omega⟩

theorem setCell_spec {s s' : Screen} {r : Int} {col : Nat} {ch : Char} {h w : Nat}
    (hs : Shaped s h w) (he : setCell s r col ch = some s') :
    0 ≤ r ∧ r.toNat < h ∧ col < w ∧ Shaped s' h w ∧
      ∀ r' col', cell s' r' col' =
        if r' = r.toNat ∧ col' = col then some ch else cell s r' col' := by
  unfold setCell at he
  split at he
  next h0 =>
    split at he
    · exact absurd he (by simp)
    next line hline =>
      split at he
      next hc =>
        have hmem : line ∈ s := List.getElem?_mem hline
        have hlen : line.length = w := hs.2 line hmem
        obtain ⟨hr, -⟩ := List.getElem?_eq_some.mp hline
        injection he with he
        subst he
        refine ⟨h0, by rw [← hs.1]; exact hr, by omega, ⟨by simp [hs.1], ?_⟩, ?_⟩
        · intro l hl
          rcases List.mem_or_eq_of_mem_set hl with h1 | h1
          · exact hs.2 l h1
          · rw [h1, List.length_set]; exact hlen
        · intro r' col'
          unfold cell
          by_cases hrr : r' = r.toNat
          · subst hrr
            rw [List.getElem?_set_self hr, hline]
            by_cases hcc : col' = col
            · subst hcc
              simp [List.getElem?_set_self hc]
            · simp [hcc, List.getElem?_set_ne (Ne.symm hcc)]
          · simp [hrr, List.getElem?_set_ne (Ne.symm hrr)]
      · exact absurd he (by simp)
  · exact absurd he (by simp)

theorem setCell_isSome {s : Screen} {r : Int} {col : Nat} (ch : Char) {h w : Nat}
    (hs : Shaped s h w) (h0 : 0 ≤ r) (hr : r < h) (hc : col < w) :
    ∃ s', setCell s r col ch = some s' := by
  have hlt : r.toNat < s.length := by rw [hs.1]; omega
  have hline : s[r.toNat]? = some (s[r.toNat]) := List.getElem?_eq_getElem hlt
  have hlen : (s[r.toNat]).length = w := hs.2 _ (List.getElem_mem hlt)
  refine ⟨s.set r.toNat ((s[r.toNat]).set col ch), ?_⟩
  unfold setCell
  rw [if_pos h0, hline]
  simp only
  rw [if_pos (by omega)]

theorem paintRows_spec {col : Nat} {ch : Char} {h w : Nat} (rows : List Int) :
    ∀ {s s' : Screen}, Shaped s h w → paintRows s col ch rows = some s' →
      (∀ r ∈ rows, 0 ≤ r ∧ r < h) ∧ Shaped s' h w ∧
        ∀ r' col', cell s' r' col' =
          if col' = col ∧ (r' : Int) ∈ rows then some ch else cell s r' col' := by
  induction rows with
  | nil =>
    intro s s' hs he
    simp only [paintRows, Option.some.injEq] at he
    subst he
    simp [hs]
  | cons r rest ih =>
    intro s s' hs he
    unfold paintRows at he
    split at he
    · exact absurd he (by simp)
    next s1 h1 =>
      obtain ⟨h0, hr, -, hs1, hcell1⟩ := setCell_spec hs h1
      obtain ⟨hrest, hs', hcell⟩ := ih hs1 he
      refine ⟨?_, hs', ?_⟩
      · intro x hx
        rcases List.mem_cons.mp hx with hx | hx
        · subst hx; omega
        · exact hrest x hx
      · intro r' col'
        rw [hcell, hcell1]
        have hiff : r' = r.toNat ↔ (r' : Int) = r := by omega
        simp only [List.mem_cons]
        split_ifs <;> first | rfl | (exfalso; tauto)

theorem paintRows_isSome {col : Nat} (ch : Char) {h w : Nat} (hc : col < w) (rows : List Int) :
    ∀ {s : Screen}, Shaped s h w → (∀ r ∈ rows, 0 ≤ r ∧ r < h) →
      ∃ s', paintRows s col ch rows = some s' := by
  induction rows with
  | nil =>
    intro s _ _
    exact ⟨s, rfl⟩
  | cons r rest ih =>
    intro s hs hrows
    obtain ⟨h0, hr⟩ := hrows r (List.mem_cons_self r rest)
    obtain ⟨s1, h1⟩ := setCell_isSome ch hs h0 hr hc
    obtain ⟨-, -, -, hs1, -⟩ := setCell_spec hs h1
    obtain ⟨s', h'⟩ := ih hs1 (fun x hx => hrows x (List.mem_cons_of_mem r hx))
    refine ⟨s', ?_⟩
    unfold paintRows
    rw [h1]
    exact h'

theorem paintColumn_spec {height : Int} {minPrice maxPrice : Dbl} {s s' : Screen} {col : Nat}
    {c : Candle} {h w : Nat} (hs : Shaped s h w)
    (he : paintColumn height minPrice maxPrice s col c = some s') :
    (∃ rows, candleRows height minPrice maxPrice c = some rows) ∧ Shaped s' h w ∧
      ∀ r' col', cell s' r' col' =
        if col' = col then overlayBar height minPrice maxPrice c r' (cell s r' col')
        else cell s r' col' := by
  unfold paintColumn at he
  split at he
  · exact absurd he (by simp)
  next rows hrows =>
    split at he
    · exact absurd he (by simp)
    next s1 h1 =>
      obtain ⟨-, hs1, hcell1⟩ := paintRows_spec _ hs h1
      obtain ⟨-, hs', hcell⟩ := paintRows_spec _ hs1 he
      refine ⟨⟨rows, hrows⟩, hs', ?_⟩
      intro r' col'
      rw [hcell, hcell1]
      simp only [mem_loopRows, overlayBar, hrows, overlay]
      by_cases hc : col' = col
      · simp [hc]
      · simp [hc]

theorem paintColumn_isSome {height : Int} {minPrice maxPrice : Dbl} {s : Screen} {col : Nat}
    {c : Candle} {w : Nat} {rows : Rows} (hs : Shaped s height.toNat w) (hc : col < w)
    (hrows : candleRows height minPrice maxPrice c = some rows) (hg : rows.inGrid height) :
    ∃ s', paintColumn height minPrice maxPrice s col c = some s' := by
  have hH := hg rows.yHigh (by simp)
  have hL := hg rows.yLow (by simp)
  have hO := hg rows.yOpen (by simp)
  have hC := hg rows.yClose (by simp)
  obtain ⟨s1, h1⟩ := paintRows_isSome '|' hc (loopRows rows.yHigh rows.yLow) hs
    (by
      intro r hr
      rw [mem_loopRows] at hr
      omega)
  obtain ⟨-, hs1, -⟩ := paintRows_spec _ hs h1
  obtain ⟨s', h'⟩ := paintRows_isSome (bodySymbol c) hc
    (loopRows (bodyTop rows) (bodyBottom rows)) hs1
    (by
      intro r hr
      rw [mem_loopRows] at hr
      simp only [bodyTop, bodyBottom] at hr
      omega)
  refine ⟨s', ?_⟩
  unfold paintColumn
  simp only [hrows, h1]
  exact h'

theorem paintFrom_spec {height : Int} {minPrice maxPrice : Dbl} {h w : Nat}
    (bars : List Candle) :
    ∀ {s s' : Screen} {col0 : Nat}, Shaped s h w →
      paintFrom height minPrice maxPrice s col0 bars = some s' →
      (∀ c ∈ bars, ∃ rows, candleRows height minPrice maxPrice c = some rows) ∧
      Shaped s' h w ∧ ∀ r' col', cell s' r' col' =
        if col0 ≤ col' then
          match bars[col' - col0]? with
          | some c => overlayBar height minPrice maxPrice c r' (cell s r' col')
          | none => cell s r' col'
        else cell s r' col' := by
  induction bars with
  | nil =>
    intro s s' col0 hs he
    simp only [paintFrom, Option.some.injEq] at he
    subst he
    refine ⟨by simp, hs, ?_⟩
    intro r' col'
    simp
  | cons c rest ih =>
    intro s s' col0 hs he
    unfold paintFrom at he
    split at he
    · exact absurd he (by simp)
    next s1 h1 =>
      obtain ⟨hrows, hs1, hcell1⟩ := paintColumn_spec hs h1
      obtain ⟨hall, hs', hcell⟩ := ih hs1 he
      refine ⟨?_, hs', ?_⟩
      · intro x hx
        rcases List.mem_cons.mp hx with hx | hx
        · rw [hx]; exact hrows
        · exact hall x hx
      · intro r' col'
        rw [hcell, hcell1]
        rcases Nat.lt_trichotomy col' col0 with hlt | heq | hgt
        · rw [if_neg (by omega), if_neg (by omega), if_neg (by omega)]
        · subst heq
          rw [if_neg (by omega), if_pos rfl, if_pos (le_refl _)]
          simp
        · rw [if_pos (by omega), if_neg (by omega), if_pos (by omega)]
          have hidx : col' - col0 = (col' - (col0 + 1)) + 1 := by omega
          rw [hidx, List.getElem?_cons_succ]

theorem paintFrom_isSome {height : Int} {minPrice maxPrice : Dbl} {w : Nat}
    (bars : List Candle) :
    ∀ {s : Screen} {col0 : Nat}, Shaped s height.toNat w → col0 + bars.length ≤ w →
      (∀ c ∈ bars, ∃ rows, candleRows height minPrice maxPrice c = some rows ∧
        rows.inGrid height) →
      ∃ s', paintFrom height minPrice maxPrice s col0 bars = some s' := by
  induction bars with
  | nil =>
    intro s col0 _ _ _
    exact ⟨s, rfl⟩
  | cons c rest ih =>
    intro s col0 hs hw hg
    simp only [List.length_cons] at hw
    obtain ⟨rows, hrows, hin⟩ := hg c (List.mem_cons_self c rest)
    obtain ⟨s1, h1⟩ := paintColumn_isSome hs (show col0 < w by omega) hrows hin
    obtain ⟨-, hs1, -⟩ := paintColumn_spec hs h1
    obtain ⟨s', h'⟩ := ih hs1 (show col0 + 1 + rest.length ≤ w by omega)
      (fun x hx => hg x (List.mem_cons_of_mem c hx))
    refine ⟨s', ?_⟩
    unfold paintFrom
    rw [h1]
    exact h'

theorem shaped_replicate (h w : Nat) (ch : Char) :
    Shaped (List.replicate h (List.replicate w ch)) h w := by
  refine ⟨List.length_replicate h _, ?_⟩
  intro l hl
  rw [List.eq_of_mem_replicate hl, List.length_replicate]

theorem cell_replicate (h w : Nat) (ch : Char) (r col : Nat) :
    cell (List.replicate h (List.replicate w ch)) r col =
      if r < h ∧ col < w then some ch else none := by
  unfold cell
  rw [List.getElem?_replicate]
  by_cases hr : r < h
  · simp only [hr, if_true, true_and]
    rw [List.getElem?_replicate]
  · simp [hr]

/-! ## The grid after the column loop -/

theorem drawScreen_spec {height : Int} {window : List Candle} {s : Screen} {mn mx : Dbl}
    (hr : priceRange window = some (mn, mx)) (he : drawScreen height window = some s) :
    Shaped s height.toNat window.length ∧
      ∀ col c, window[col]? = some c →
        ∃ rows, candleRows height mn mx c = some rows ∧
          ∀ r : Nat, (r : Int) < height → cell s r col = some (expectedCell rows c r) := by
  unfold drawScreen at he
  rw [hr] at he
  simp only [blankScreen] at he
  split at he
  · exact absurd he (by simp)
  next s0 h0 =>
    split at h0
    next hh =>
      injection h0 with h0
      subst h0
      obtain ⟨hall, hs, hcell⟩ := paintFrom_spec window (shaped_replicate _ _ ' ') he
      refine ⟨hs, ?_⟩
      intro col c hc
      obtain ⟨rows, hrows⟩ := hall c (List.getElem?_mem hc)
      refine ⟨rows, hrows, ?_⟩
      intro r hrlt
      obtain ⟨hcol, -⟩ := List.getElem?_eq_some.mp hc
      rw [hcell, if_pos (Nat.zero_le col), Nat.sub_zero, hc]
      simp only
      rw [cell_replicate, if_pos ⟨by omega, hcol⟩]
      simp only [overlayBar, hrows, overlay, expectedCell]
      split_ifs <;> rfl
    · exact absurd h0 (by simp)

theorem drawScreen_isSome {height : Int} {window : List Candle} {mn mx : Dbl} (hh : 0 ≤ height)
    (hr : priceRange window = some (mn, mx))
    (hg : ∀ c ∈ window, ∃ rows, candleRows height mn mx c = some rows ∧ rows.inGrid height) :
    ∃ s, drawScreen height window = some s := by
  obtain ⟨s, hs⟩ := @paintFrom_isSome height mn mx window.length window _ 0
    (shaped_replicate height.toNat window.length ' ') (by omega) hg
  refine ⟨s, ?_⟩
  unfold drawScreen
  rw [hr]
  simp only [blankScreen, if_pos hh]
  exact hs

/-! ## The price range -/

theorem Dbl.le_add_one {v : Dbl} (hv : Dbl.le v v = true) (hd : v.isDouble = true) :
    Dbl.le v (Dbl.add v (Dbl.fin 1)) = true := by
  cases v with
  | fin m =>
    have e : roundDbl m = Dbl.fin m := by simpa [Dbl.isDouble] using hd
    have h := @roundDbl_mono m (m + 1) (by linarith)
    rw [e] at h
    exact h
  | pinf => rfl
  | ninf => rfl
  | nan => exact absurd hv (by simp [Dbl.le])

theorem foldl_rangeStep_le (l : List Candle) :
    ∀ acc : Dbl × Dbl, Dbl.le acc.1 acc.2 = true → acc.1.isDouble = true →
      (∀ c ∈ l, Dbl.le c.low c.high = true ∧ c.isDouble = true) →
      Dbl.le (l.foldl rangeStep acc).1 (l.foldl rangeStep acc).2 = true ∧
        (l.foldl rangeStep acc).1.isDouble = true := by
  induction l with
  | nil =>
    intro acc h1 h2 _
    exact ⟨h1, h2⟩
  | cons c rest ih =>
    intro acc h1 h2 hall
    obtain ⟨hc, hcd⟩ := hall c (List.mem_cons_self c rest)
    have hlow : c.low.isDouble = true := by
      simp only [Candle.isDouble, Bool.and_eq_true] at hcd
      exact hcd.1.2
    rw [List.foldl_cons]
    apply ih
    · simp only [rangeStep]
      split_ifs with a1 a2 a2
      · exact hc
      · exact Dbl.le_trans (Dbl.le_of_lt a1) h1
      · exact Dbl.le_trans h1 (Dbl.le_of_lt a2)
      · exact h1
    · simp only [rangeStep]
      split_ifs
      · exact hlow
      · exact h2
    · exact fun x hx => hall x (List.mem_cons_of_mem c hx)

theorem priceRange_le {window : List Candle} (hne : window ≠ [])
    (hall : ∀ c ∈ window, Dbl.le c.low c.high = true ∧ c.isDouble = true) :
    ∃ mn mx, priceRange window = some (mn, mx) ∧ Dbl.le mn mx = true := by
  cases window with
  | nil => exact absurd rfl hne
  | cons c0 rest =>
    obtain ⟨hc, hcd⟩ := hall c0 (List.mem_cons_self c0 rest)
    have hlow : c0.low.isDouble = true := by
      simp only [Candle.isDouble, Bool.and_eq_true] at hcd
      exact hcd.1.2
    obtain ⟨h1, h2⟩ := foldl_rangeStep_le (c0 :: rest) (c0.low, c0.high) hc hlow hall
    refine ⟨_, _, rfl, ?_⟩
    split_ifs with hb
    · rw [Dbl.eq_of_beq hb] at h1 ⊢
      exact Dbl.le_add_one h1 h2
    · exact h1

/-! ## The claims -/

/-- C1, the failing input. The bar whose four prices are `2^53` is a bar of
`double` prices that satisfies `low ≤ min(open, close)` and
`max(open, close) ≤ high`. For it the range is `2^53` to `2^53`: the
addition of `1.0` is absorbed. The operand of the cast in `getRow` is then
NaN, no row is defined, and the column loop of a grid of 20 rows has no
defined result. -/
theorem flat_bar_2p53_has_no_rows :
    flatBar53.isDouble = true ∧
    (Dbl.le flatBar53.low flatBar53.open_ = true ∧ Dbl.le flatBar53.low flatBar53.close = true ∧
      Dbl.le flatBar53.open_ flatBar53.high = true ∧
      Dbl.le flatBar53.close flatBar53.high = true) ∧
    priceRange [flatBar53] = some (Dbl.fin 9007199254740992, Dbl.fin 9007199254740992) ∧
    rowArg 20 (Dbl.fin 9007199254740992) (Dbl.fin 9007199254740992) flatBar53.high = Dbl.nan ∧
    getRow 20 (Dbl.fin 9007199254740992) (Dbl.fin 9007199254740992) flatBar53.high = none ∧
    candleRows 20 (Dbl.fin 9007199254740992) (Dbl.fin 9007199254740992) flatBar53 = none ∧
    drawScreen 20 [flatBar53] = none := by
  refine ⟨by decide!, ⟨by decide!, by decide!, by decide!, by decide!⟩, by decide!, by decide!,
    by decide!, by decide!, by decide!⟩

/-- C2. For a non-empty bar sequence of length `n` and a terminal width
`w ≥ 6`, the window is defined and is exactly the last `min(n, (w - 4) / 2)`
bars of the input in their order: a suffix of the input of that length, with
at least one bar, at most `(w - 4) / 2` bars and at most `n` bars, whose last
bar is the last bar of the input. With the fallback width 80 the capacity is
38. -/
theorem window_is_last_bars (candles : List Candle) (w : Int) (hne : candles ≠ [])
    (hw : 6 ≤ w) :
    (∃ window, selectWindow candles w = some window ∧
      window = candles.drop (candles.length - min candles.length ((w - 4) / 2).toNat) ∧
      (window.length : Int) = min (candles.length : Int) ((w - 4) / 2) ∧
      window <:+ candles ∧
      1 ≤ window.length ∧
      (window.length : Int) ≤ (w - 4) / 2 ∧
      window.length ≤ candles.length ∧
      window.getLast? = candles.getLast?) ∧
    getTerminalWidth none = 80 ∧ maxCandles (getTerminalWidth none) = 38 := by
  have hlen : 0 < candles.length := List.length_pos.mpr hne
  have hmc : maxCandles w = (w - 4) / 2 := by
    unfold maxCandles availableCols stride padding
    exact Int.tdiv_eq_ediv (by omega) (by decide)
  have hpos : 1 ≤ (w - 4) / 2 := by omega
  have hsel : selectWindow candles w =
      some (candles.drop (candles.length - min candles.length ((w - 4) / 2).toNat)) := by
    unfold selectWindow startIdx numCandlesToShow
    rw [hmc]
    simp only
    rw [if_pos (by omega)]
    congr 2
    omega
  refine ⟨⟨_, hsel, rfl, ?_, List.drop_suffix _ _, ?_, ?_, ?_, ?_⟩, rfl, by decide⟩
  · rw [List.length_drop]
    omega
  · rw [List.length_drop]
    omega
  · rw [List.length_drop]
    omega
  · rw [List.length_drop]
    omega
  · rw [List.getLast?_drop, if_neg (by omega)]

/-- Witness of C2: two bars on a terminal of 6 columns, which shows one. -/
theorem window_is_last_bars_witness :
    (∃ window, selectWindow [badBar, sampleBar] 6 = some window ∧
      window = [badBar, sampleBar].drop
        ([badBar, sampleBar].length - min [badBar, sampleBar].length ((6 - 4 : Int) / 2).toNat) ∧
      (window.length : Int) = min ([badBar, sampleBar].length : Int) ((6 - 4) / 2) ∧
      window <:+ [badBar, sampleBar] ∧
      1 ≤ window.length ∧
      (window.length : Int) ≤ (6 - 4) / 2 ∧
      window.length ≤ [badBar, sampleBar].length ∧
      window.getLast? = [badBar, sampleBar].getLast?) ∧
    getTerminalWidth none = 80 ∧ maxCandles (getTerminalWidth none) = 38 :=
  window_is_last_bars [badBar, sampleBar] 6 (by simp) (by decide)

/-- Counterexample to C4 as stated: in the call on the sample bar with
height 20 the range is 99 to 105; the prices `-10^12 ≤ 100` do not have rows
with `getRow(-10^12) ≥ getRow(100)`, because `getRow(100)` is 16 while the
cast in `getRow(-10^12)` receives a value below the range of `int` and is
undefined. -/
theorem getRow_far_price_has_no_row :
    priceRange [sampleBar] = some (Dbl.fin 99, Dbl.fin 105) ∧
    Dbl.le sampleBar.low sampleBar.high = true ∧
    Dbl.le (Dbl.fin (-1000000000000)) (Dbl.fin 100) = true ∧
    getRow 20 (Dbl.fin 99) (Dbl.fin 105) (Dbl.fin 100) = some 16 ∧
    rowArg 20 (Dbl.fin 99) (Dbl.fin 105) (Dbl.fin (-1000000000000)) =
      Dbl.fin (-6485333333974357 / 2048) ∧
    getRow 20 (Dbl.fin 99) (Dbl.fin 105) (Dbl.fin (-1000000000000)) = none ∧
    ¬ ∃ rp rq, getRow 20 (Dbl.fin 99) (Dbl.fin 105) (Dbl.fin (-1000000000000)) = some rp ∧
      getRow 20 (Dbl.fin 99) (Dbl.fin 105) (Dbl.fin 100) = some rq ∧ rq ≤ rp := by
  have h : getRow 20 (Dbl.fin 99) (Dbl.fin 105) (Dbl.fin (-1000000000000)) = none := by decide!
  refine ⟨by decide!, by decide!, by decide!, by decide!, by decide!, h, ?_⟩
  rintro ⟨rp, rq, h1, -, -⟩
  rw [h] at h1
  exact absurd h1 (by simp)

/-- C4, amended. Within one call of `Chart::draw` with a height of at least
1 on a non-empty window of `double` bars with `low ≤ high`, `getRow` is
monotonically non-increasing in the price wherever it is defined: for
prices `p ≤ q` at which both casts are defined, `getRow q ≤ getRow p`. In
the call on the sample bar with height 20 the prices 100 and 104 have the
rows 16 and 3. -/
theorem getRow_nonincreasing (height : Int) (window : List Candle) (hh : 1 ≤ height)
    (hne : window ≠ [])
    (hall : ∀ c ∈ window, Dbl.le c.low c.high = true ∧ c.isDouble = true) :
    (∃ mn mx, priceRange window = some (mn, mx) ∧
      ∀ p q : Dbl, ∀ rp rq : Int, Dbl.le p q = true →
        getRow height mn mx p = some rp → getRow height mn mx q = some rq → rq ≤ rp) ∧
    getRow 20 (Dbl.fin 99) (Dbl.fin 105) (Dbl.fin 100) = some 16 ∧
    getRow 20 (Dbl.fin 99) (Dbl.fin 105) (Dbl.fin 104) = some 3 := by
  obtain ⟨mn, mx, hp, hle⟩ := priceRange_le hne hall
  exact ⟨⟨mn, mx, hp, fun p q rp rq hpq h1 h2 => getRow_antitone hh hle hpq h1 h2⟩,
    by decide!, by decide!⟩

/-- Witness of C4, amended: the sample bar in a grid of 20 rows. -/
theorem getRow_nonincreasing_witness :
    (∃ mn mx, priceRange [sampleBar] = some (mn, mx) ∧
      ∀ p q : Dbl, ∀ rp rq : Int, Dbl.le p q = true →
        getRow 20 mn mx p = some rp → getRow 20 mn mx q = some rq → rq ≤ rp) ∧
    getRow 20 (Dbl.fin 99) (Dbl.fin 105) (Dbl.fin 100) = some 16 ∧
    getRow 20 (Dbl.fin 99) (Dbl.fin 105) (Dbl.fin 104) = some 3 :=
  getRow_nonincreasing 20 [sampleBar] (by decide) (by simp) (by
    intro c hc
    rw [List.mem_singleton] at hc
    subst hc
    exact ⟨by decide!, by decide!⟩)

/-- C5, the failing input. In `double` arithmetic `2^53 + 1.0` is `2^53`.
For the window of the one bar whose four prices are `2^53` the greatest
high equals the least low, the widening leaves `maxPrice` equal to
`minPrice`, and the divisor `maxPrice - minPrice` of `getRow` is zero. Below
that magnitude the widening works: a flat bar at 50 gives the range 50 to
51. For the sample bar the range is 99 to 105, and these are the values that
`Chart::draw` prints after `Max: ` and `Min: `. -/
theorem priceRange_divisor_zero_at_2p53 :
    Dbl.add (Dbl.fin 9007199254740992) (Dbl.fin 1) = Dbl.fin 9007199254740992 ∧
    priceRange [flatBar53] = some (Dbl.fin 9007199254740992, Dbl.fin 9007199254740992) ∧
    Dbl.sub (Dbl.fin 9007199254740992) (Dbl.fin 9007199254740992) = Dbl.fin 0 ∧
    priceRange [flatBar] = some (Dbl.fin 50, Dbl.fin 51) ∧
    priceRange [sampleBar] = some (Dbl.fin 99, Dbl.fin 105) ∧
    (∀ (showDouble : Dbl → String) (symbol : String),
      draw showDouble 3 none [sampleBar] symbol =
        some ("\n\x1b[1m" ++ "Chart: " ++ symbol ++ " (" ++ toString 1
          ++ " candles)" ++ "\x1b[0m" ++ "\n"
          ++ "Max: " ++ showDouble (Dbl.fin 105) ++ "\n" ++ "\n"
          ++ String.join ([['|'], ['O'], ['O']].map rowText)
          ++ "\nMin: " ++ showDouble (Dbl.fin 99) ++ "\n"
          ++ rangeText [sampleBar]
          ++ "\n")) := by
  refine ⟨by decide!, by decide!, by decide!, by decide!, by decide!, ?_⟩
  intro showDouble symbol
  have h1 : selectWindow [sampleBar] (getTerminalWidth none) = some [sampleBar] := by decide
  have h2 : priceRange [sampleBar] = some (Dbl.fin 99, Dbl.fin 105) := by decide!
  have h3 : drawScreen 3 [sampleBar] = some [['|'], ['O'], ['O']] := by decide!
  simp only [draw, List.isEmpty_cons, h1, h2, h3]
  rfl

/-- C6, the failing input. In the window of two bars whose four prices all
equal `2^53`, with height 20, the range is `2^53` to `2^53`, the quotient of
`getRow` is `0 / 0`, which is NaN, and neither the grid nor the output of
`Chart::draw` is defined. Below that magnitude the claim holds: two flat
bars at 50 with height 3 give two blank rows above a row of `O`. -/
theorem flat_series_2p53_has_no_grid :
    (∀ c ∈ [flatBar53, flatBar53],
      c.open_ = Dbl.fin 9007199254740992 ∧ c.high = Dbl.fin 9007199254740992 ∧
      c.low = Dbl.fin 9007199254740992 ∧ c.close = Dbl.fin 9007199254740992) ∧
    priceRange [flatBar53, flatBar53] =
      some (Dbl.fin 9007199254740992, Dbl.fin 9007199254740992) ∧
    Dbl.div (Dbl.sub (Dbl.fin 9007199254740992) (Dbl.fin 9007199254740992))
      (Dbl.sub (Dbl.fin 9007199254740992) (Dbl.fin 9007199254740992)) = Dbl.nan ∧
    drawScreen 20 [flatBar53, flatBar53] = none ∧
    (∀ (showDouble : Dbl → String) (symbol : String),
      draw showDouble 20 none [flatBar53, flatBar53] symbol = none) ∧
    drawScreen 3 [flatBar, flatBar] = some [[' ', ' '], [' ', ' '], ['O', 'O']] := by
  refine ⟨by decide, by decide!, by decide!, by decide!, ?_, by decide!⟩
  intro showDouble symbol
  have h1 : selectWindow [flatBar53, flatBar53] (getTerminalWidth none) =
      some [flatBar53, flatBar53] := by decide
  have h3 : drawScreen 20 [flatBar53, flatBar53] = none := by decide!
  simp only [draw, List.isEmpty_cons, h1, h3]
  split <;> simp_all

/-- C8, the failing input. A terminal that reports 0 columns gives
`maxCandles = -2`; for one bar `numCandlesToShow = -2` and `startIdx = 3`,
past the end of the input, so the window and the call are undefined. A
terminal of 1 column gives `maxCandles = -1`, which is not the floor `-2` of
`(1 - 4) / 2`. -/
theorem maxCandles_negative_on_narrow_terminal :
    maxCandles (getTerminalWidth (some 0)) = -2 ∧
    numCandlesToShow [sampleBar].length (getTerminalWidth (some 0)) = -2 ∧
    startIdx [sampleBar].length (getTerminalWidth (some 0)) = 3 ∧
    selectWindow [sampleBar] (getTerminalWidth (some 0)) = none ∧
    (∀ showDouble symbol, draw showDouble 20 (some 0) [sampleBar] symbol = none) ∧
    maxCandles (getTerminalWidth (some 1)) = -1 ∧ ((1 : Int) - 4) / 2 = -2 := by
  refine ⟨by decide, by decide, by decide, by decide, ?_, by decide, by decide⟩
  intro showDouble symbol
  have h : selectWindow [sampleBar] (getTerminalWidth (some 0)) = none := by decide
  simp [draw, h]

/-- C9. For every height, terminal and symbol label, `Chart::draw` on an
empty bar sequence returns at once: it is defined and writes the empty text
(no header, no grid, no Min, Max or Range line). By contrast, on the sample
bar it writes a text that is not empty. -/
theorem draw_empty (showDouble : Dbl → String) (height : Int) (wsCol : Option Nat)
    (symbol : String) :
    draw showDouble height wsCol [] symbol = some "" ∧
    ∃ out, draw showDouble 3 none [sampleBar] symbol = some out ∧ out ≠ "" := by
  refine ⟨by simp [draw], ?_⟩
  have h1 : selectWindow [sampleBar] (getTerminalWidth none) = some [sampleBar] := by decide
  have h2 : priceRange [sampleBar] = some (Dbl.fin 99, Dbl.fin 105) := by decide!
  have h3 : drawScreen 3 [sampleBar] = some [['|'], ['O'], ['O']] := by decide!
  refine ⟨_, by simp only [draw, List.isEmpty_cons, h1, h2, h3]; rfl, ?_⟩
  intro h
  have h4 := congrArg String.length h
  simp only [String.length_append] at h4
  simp only [String.length_empty, Nat.add_eq_zero] at h4
  exact absurd h4.2 (by decide)

/-- C10. No clamping: for the window of the single bar open 200, high 105,
low 99, close 103 with height 20, the range is 99 to 105, `getRow` sends the
open to row -301, outside the rows 0 to 19; the wick loop stays inside the
grid, the body loop starts at row -301, its write there is outside the grid,
and the column loop is undefined. -/
theorem draw_no_clamping :
    Dbl.lt badBar.high badBar.open_ = true ∧
    priceRange [badBar] = some (Dbl.fin 99, Dbl.fin 105) ∧
    getRow 20 (Dbl.fin 99) (Dbl.fin 105) badBar.open_ = some (-301) ∧
    (∀ r, getRow 20 (Dbl.fin 99) (Dbl.fin 105) badBar.open_ = some r →
      ¬ (0 ≤ r ∧ r ≤ 20 - 1)) ∧
    candleRows 20 (Dbl.fin 99) (Dbl.fin 105) badBar = some (Rows.mk 0 19 (-301) 6) ∧
    (loopRows (bodyTop (Rows.mk 0 19 (-301) 6)) (bodyBottom (Rows.mk 0 19 (-301) 6))).head?
      = some (-301) ∧
    (∃ s, paintRows (List.replicate 20 (List.replicate 1 ' ')) 0 '|' (loopRows 0 19) = some s ∧
      setCell s (-301) 0 (bodySymbol badBar) = none) ∧
    drawScreen 20 [badBar] = none := by
  have h0 : getRow 20 (Dbl.fin 99) (Dbl.fin 105) badBar.open_ = some (-301) := by decide!
  refine ⟨by decide, by decide!, h0, ?_, by decide!, by decide!, ?_, by decide!⟩
  · intro r hr
    rw [h0] at hr
    injection hr with hr
    subst hr
    decide
  · exact ⟨List.replicate 20 ['|'], by decide!, by decide!⟩

end CandleTerm
